import Mathlib

/-!
# Temporal-consistency frame smoothing: shallow embedding

This file embeds the temporal-consistency smoothing pipeline of
`backend/app/services/ai/diffusion_service.py` and
`backend/app/services/video/video_processor.py` in Lean and proves the
specification's claims about it.

Modelling conventions:
* a frame (`np.ndarray` of shape `height × width × 3`, dtype `uint8`) is a
  nested list `List (List (List ℕ))`; conversion with `astype(np.float32)`
  is modelled as the coercion into `ℝ` (floating-point arithmetic is
  idealised as exact real arithmetic);
* `np.exp` is `Real.exp`; `np.clip(x, lo, hi)` is `min (max x lo) hi`;
  `astype(np.uint8)` applied to a value already clipped into `[0, 255]`
  truncates, i.e. takes `Nat.floor`;
* the elementwise accumulation loop `smoothed += weights[i] * frame`
  is modelled as requiring every frame of a window to share the shape of
  the first frame and as raising (`Option.none`) otherwise.  NumPy would
  silently broadcast a mismatch consisting only of size-one axes instead
  of raising; that case is not modelled, and every theorem below that
  asserts the accumulation raises is therefore stated only for mismatches
  NumPy cannot broadcast — adjacent frames of different heights, both at
  least `2` (whatever the accumulator frame is, one of the two then has a
  height that is neither `1` nor the accumulator's, which raises);
* the `try ... except: return frames` wrapper of both top-level loops is
  modelled by pattern matching on the `Option` result of the loop and
  returning the input on `none`.
-/

/-- An image: rows, then columns, then (three) colour channels. -/
abbrev Image (α : Type) : Type := List (List (List α))

/-- An 8-bit frame as handed around by the smoothing code. -/
abbrev Frame : Type := Image ℕ

/-- The shape of an image: the list of per-row lists of pixel widths
(`numpy` arrays are rectangular; mismatching nested lists model
mismatching array shapes). -/
def shape {α : Type} (img : Image α) : List (List ℕ) :=
  img.map (fun row => row.map List.length)

/-- Sample accessor with a default value: `img[r][j][ch]`. -/
def pxD {α : Type} (img : Image α) (d : α) (r j ch : ℕ) : α :=
  ((img.getD r []).getD j []).getD ch d

/-- Elementwise map over an image. -/
def imgMap {α β : Type} (g : α → β) (img : Image α) : Image β :=
  img.map (fun row => row.map (fun p => p.map g))

/-- Elementwise combination of two images. -/
def imgZip {α β γ : Type} (g : α → β → γ) (a : Image α) (b : Image β) : Image γ :=
  List.zipWith (fun ra rb => List.zipWith (fun pa pb => List.zipWith g pa pb) ra rb) a b

/-- A solid-colour frame: `h × w` pixels all equal to `[v1, v2, v3]`. -/
def solidF (h w v1 v2 v3 : ℕ) : Frame :=
  List.replicate h (List.replicate w [v1, v2, v3])

noncomputable section

/-- `frame.astype(np.float32)`: promote the integer samples to reals. -/
def toFloat (f : Frame) : Image ℝ :=
  imgMap (fun (v : ℕ) => (v : ℝ)) f

/-- `np.exp(-decay * np.square(np.arange(n) - c))`: the raw Gaussian
window weights before normalisation. -/
def weightsRaw (n c : ℕ) (d : ℝ) : List ℝ :=
  (List.range n).map (fun (k : ℕ) => Real.exp (-(d * ((k : ℝ) - (c : ℝ)) ^ 2)))

/-- `weights / np.sum(weights)`. -/
def normWeights (ws : List ℝ) : List ℝ :=
  ws.map (fun x => x / ws.sum)

/-- The basic-mode weights (`decay = 0.5`, `_temporal_smooth`). -/
def basicWeights (n c : ℕ) : List ℝ :=
  normWeights (weightsRaw n c 0.5)

/-- The enhanced-mode weights (`decay = 1.0`, `_enhanced_temporal_smooth`). -/
def enhancedWeights (n c : ℕ) : List ℝ :=
  normWeights (weightsRaw n c 1)

/-- `weights[i] * frame` (scalar times array). -/
def imgScale (w : ℝ) (img : Image ℝ) : Image ℝ :=
  imgMap (fun v => w * v) img

/-- `a + b` (elementwise array addition). -/
def imgAdd (a b : Image ℝ) : Image ℝ :=
  imgZip (fun x y => x + y) a b

/-- `np.zeros_like(img)`. -/
def imgZero (img : Image ℝ) : Image ℝ :=
  imgMap (fun _ => (0 : ℝ)) img

/-- The accumulation loop
`smoothed = np.zeros_like(float_frames[0])` followed by
`for i, frame in enumerate(float_frames): smoothed += weights[i] * frame`.
An empty frame list raises an `IndexError` (`none`); frames whose shape
differs from the first raise a broadcast `ValueError` (`none`).  A frame
differing from the accumulator only in size-one axes would instead be
broadcast silently by NumPy; that case is not modelled here, and no
theorem asserting a raise is stated for it. -/
def weightedSum (ws : List ℝ) (fs : List (Image ℝ)) : Option (Image ℝ) :=
  match fs with
  | [] => none
  | f0 :: _ =>
      if ∀ f ∈ fs, shape f = shape f0 then
        some ((ws.zip fs).foldl (fun acc wf => imgAdd acc (imgScale wf.1 wf.2)) (imgZero f0))
      else none

/-- `np.clip(x, 0, 255).astype(np.uint8)` for a single sample: clamp into
`[0, 255]`, then truncate to an integer. -/
def clipByte (x : ℝ) : ℕ :=
  Nat.floor (min (max x 0) 255)

/-- The weighted sum as an indexed formula (what the specification calls
"elementwise weighted sum of the window's float frames"): the sample at
`(r, j, ch)` is `Σ_k weight[k] * window[k][r][j][ch]`. -/
def blendAt (ws : List ℝ) (fs : List (Image ℝ)) (r j ch : ℕ) : ℝ :=
  ((ws.zip fs).map (fun wf => wf.1 * pxD wf.2 0 r j ch)).sum

/-- `np.mean(img, axis=(0, 1))` at channel `ch`: the sum of the channel
over all spatial positions divided by `height * width` (the width taken
from the first row; `numpy` arrays are rectangular). -/
def channelMean (img : Image ℝ) (ch : ℕ) : ℝ :=
  ((img.map (fun row => (row.map (fun p => p.getD ch 0)).sum)).sum) /
    ((img.length : ℝ) * (((img.getD 0 []).length : ℝ)))

namespace DiffusionService

/-- `DiffusionService._apply_color_consistency`, the per-channel ratio:
`np.clip(center_mean / (smoothed_mean + 1e-8), 0.8, 1.2)`. -/
def color_ratio (smoothed center : Image ℝ) (ch : ℕ) : ℝ :=
  min (max (channelMean center ch / (channelMean smoothed ch + 1e-8)) 0.8) 1.2

/-- `DiffusionService._apply_color_consistency`:
`corrected = smoothed_frame * color_ratio` with the ratio broadcast along
the channel axis. -/
def apply_color_consistency (smoothed center : Image ℝ) : Image ℝ :=
  smoothed.map (fun row => row.map (fun p =>
    p.mapIdx (fun ch v => v * color_ratio smoothed center ch)))

/-- `DiffusionService._temporal_smooth` (basic mode, decay `0.5`): a
single-frame window is returned unchanged; otherwise the weighted sum is
clipped to `[0, 255]` and converted back to `uint8`. -/
def temporal_smooth (window : List Frame) (c : ℕ) : Option Frame :=
  match window with
  | [f] => some f
  | _ =>
      (weightedSum (basicWeights window.length c) (window.map toFloat)).map
        (imgMap clipByte)

/-- `DiffusionService._enhanced_temporal_smooth` (decay `1.0`): weighted
sum, then colour-consistency correction against `float_frames[center_idx]`,
then clip and convert to `uint8`. -/
def enhanced_temporal_smooth (window : List Frame) (c : ℕ) : Option Frame :=
  match window with
  | [f] => some f
  | _ =>
      match weightedSum (enhancedWeights window.length c) (window.map toFloat) with
      | none => none
      | some sm =>
          match (window.map toFloat).get? c with
          | none => none
          | some centerF =>
              some (imgMap clipByte (apply_color_consistency sm centerF))

end DiffusionService

/-- `start_idx = max(0, i - window_size // 2)` (natural subtraction
equals the `max` with `0`). -/
def winStart (i w : ℕ) : ℕ := i - w / 2

/-- `end_idx = min(len(frames), i + window_size // 2 + 1)`. -/
def winStop (len i w : ℕ) : ℕ := min len (i + w / 2 + 1)

/-- `window_frames = frames[start_idx:end_idx]`. -/
def windowAt (frames : List Frame) (w i : ℕ) : List Frame :=
  (frames.drop (winStart i w)).take (winStop frames.length i w - winStart i w)

/-- The `for i in range(len(frames))` loop collecting the smoothed frames:
the first raised exception aborts the loop (the partial list is
discarded by the caller's `except` handler). -/
def smoothLoop (f : ℕ → Option Frame) : List ℕ → Option (List Frame)
  | [] => some []
  | i :: is =>
      match f i with
      | none => none
      | some g =>
          match smoothLoop f is with
          | none => none
          | some gs => some (g :: gs)

namespace DiffusionService

/-- `DiffusionService._apply_temporal_consistency` (default
`window_size = 3`): pass-through for short sequences, and the
`try ... except ...: return frames` wrapper around the smoothing loop. -/
def apply_temporal_consistency (frames : List Frame) (w : ℕ) : List Frame :=
  if frames.length < w then frames
  else
    match smoothLoop
        (fun i => temporal_smooth (windowAt frames w i) (i - winStart i w))
        (List.range frames.length) with
    | none => frames
    | some out => out

/-- `DiffusionService._apply_temporal_consistency` applied with its
default argument `window_size = 3`. -/
def apply_temporal_consistency_default (frames : List Frame) : List Frame :=
  apply_temporal_consistency frames 3

/-- `DiffusionService._apply_enhanced_temporal_consistency` (default
`window_size = 5`). -/
def apply_enhanced_temporal_consistency (frames : List Frame) (w : ℕ) : List Frame :=
  if frames.length < w then frames
  else
    match smoothLoop
        (fun i => enhanced_temporal_smooth (windowAt frames w i) (i - winStart i w))
        (List.range frames.length) with
    | none => frames
    | some out => out

/-- `DiffusionService._apply_enhanced_temporal_consistency` applied with
its default argument `window_size = 5`. -/
def apply_enhanced_temporal_consistency_default (frames : List Frame) : List Frame :=
  apply_enhanced_temporal_consistency frames 5

end DiffusionService

namespace VideoProcessor

/-- `VideoProcessor._temporal_smooth`: a verbatim duplicate of
`DiffusionService._temporal_smooth`. -/
def temporal_smooth (window : List Frame) (c : ℕ) : Option Frame :=
  match window with
  | [f] => some f
  | _ =>
      (weightedSum (basicWeights window.length c) (window.map toFloat)).map
        (imgMap clipByte)

/-- `VideoProcessor.apply_temporal_consistency` (default
`window_size = 5`): same body as the diffusion-service basic variant (the
extra `logger.info` call has no functional effect). -/
def apply_temporal_consistency (frames : List Frame) (w : ℕ) : List Frame :=
  if frames.length < w then frames
  else
    match smoothLoop
        (fun i => temporal_smooth (windowAt frames w i) (i - winStart i w))
        (List.range frames.length) with
    | none => frames
    | some out => out

/-- `VideoProcessor.apply_temporal_consistency` applied with its default
argument `window_size = 5`. -/
def apply_temporal_consistency_default (frames : List Frame) : List Frame :=
  apply_temporal_consistency frames 5

end VideoProcessor

end

/-! ## Generic list and image lemmas -/

theorem getD_map {α β : Type} (g : α → β) (l : List α) (d : α) (n : ℕ) :
    (l.map g).getD n (g d) = g (l.getD n d) := by
  induction l generalizing n with
  | nil => simp
  | cons a t ih => cases n <;> simp [ih]

theorem getD_zipWith {α β γ : Type} (g : α → β → γ) (l1 : List α) (l2 : List β)
    (d1 : α) (d2 : β) (h : l1.length = l2.length) (n : ℕ) :
    (List.zipWith g l1 l2).getD n (g d1 d2) = g (l1.getD n d1) (l2.getD n d2) := by
  induction l1 generalizing l2 n with
  | nil =>
      have : l2 = [] := by
        cases l2 with
        | nil => rfl
        | cons b t => simp at h
      subst this; simp
  | cons a t ih =>
      cases l2 with
      | nil => simp at h
      | cons b t2 =>
          cases n with
          | zero => simp
          | succ m =>
              simp only [List.zipWith_cons_cons, List.getD_cons_succ]
              exact ih t2 (by simpa using h) m

theorem pxD_imgMap {α β : Type} (g : α → β) (img : Image α) (d : α) (r j ch : ℕ) :
    pxD (imgMap g img) (g d) r j ch = g (pxD img d r j ch) := by
  unfold pxD imgMap
  have h1 : (img.map (fun row => row.map (fun p => p.map g))).getD r []
      = (img.getD r []).map (fun p => p.map g) :=
    getD_map (fun row => row.map (fun p => p.map g)) img [] r
  rw [h1]
  have h2 : ((img.getD r []).map (fun p => p.map g)).getD j []
      = ((img.getD r []).getD j []).map g :=
    getD_map (fun p => p.map g) (img.getD r []) [] j
  rw [h2]
  exact getD_map g _ d ch

theorem shape_imgMap {α β : Type} (g : α → β) (img : Image α) :
    shape (imgMap g img) = shape img := by
  simp [shape, imgMap, List.map_map, Function.comp]

theorem shape_toFloat (f : Frame) : shape (toFloat f) = shape f :=
  shape_imgMap _ f

/-- Shape equality gives equal outer lengths. -/
theorem length_eq_of_shape_eq {α β : Type} {a : Image α} {b : Image β}
    (h : shape a = shape b) : a.length = b.length := by
  have := congrArg List.length h
  simpa [shape] using this

/-- The row of `shape` at index `r` is the width list of row `r`. -/
theorem shape_getD {α : Type} (img : Image α) (r : ℕ) :
    (shape img).getD r [] = (img.getD r []).map List.length := by
  induction img generalizing r with
  | nil => simp [shape]
  | cons a t ih =>
      cases r with
      | zero => simp [shape]
      | succ n =>
          simp only [shape, List.map_cons, List.getD_cons_succ]
          exact ih n

/-- The width list of a row at index `j` is the pixel's length. -/
theorem widths_getD {α : Type} (row : List (List α)) (j : ℕ) :
    (row.map List.length).getD j 0 = (row.getD j []).length := by
  induction row generalizing j with
  | nil => simp
  | cons p t ih =>
      cases j with
      | zero => simp
      | succ n =>
          simp only [List.map_cons, List.getD_cons_succ]
          exact ih n

/-- Shape equality gives equal per-row width lists at every row index. -/
theorem rowLens_eq_of_shape_eq {α β : Type} {a : Image α} {b : Image β}
    (h : shape a = shape b) (r : ℕ) :
    (a.getD r []).map List.length = (b.getD r []).map List.length := by
  have h' := congrArg (fun s : List (List ℕ) => s.getD r []) h
  simp only at h'
  rwa [shape_getD, shape_getD] at h'

/-- Shape equality gives equal pixel widths at every position. -/
theorem pixLen_eq_of_shape_eq {α β : Type} {a : Image α} {b : Image β}
    (h : shape a = shape b) (r j : ℕ) :
    ((a.getD r []).getD j []).length = ((b.getD r []).getD j []).length := by
  have hr := rowLens_eq_of_shape_eq h r
  have h' := congrArg (fun s : List ℕ => s.getD j 0) hr
  simp only at h'
  rwa [widths_getD, widths_getD] at h'

theorem pxD_imgZip {α β γ : Type} (g : α → β → γ) (a : Image α) (b : Image β)
    (d1 : α) (d2 : β) (h : shape a = shape b) (r j ch : ℕ) :
    pxD (imgZip g a b) (g d1 d2) r j ch = g (pxD a d1 r j ch) (pxD b d2 r j ch) := by
  unfold pxD imgZip
  have hlen : a.length = b.length := length_eq_of_shape_eq h
  have h1 : (List.zipWith (fun ra rb => List.zipWith (fun pa pb => List.zipWith g pa pb) ra rb) a b).getD r []
      = List.zipWith (fun pa pb => List.zipWith g pa pb) (a.getD r []) (b.getD r []) :=
    getD_zipWith
      (fun ra rb => List.zipWith (fun pa pb => List.zipWith g pa pb) ra rb) a b [] [] hlen r
  rw [h1]
  have hrlen : (a.getD r []).length = (b.getD r []).length := by
    have := rowLens_eq_of_shape_eq h r
    have := congrArg List.length this
    simpa using this
  have h2 : (List.zipWith (fun pa pb => List.zipWith g pa pb) (a.getD r []) (b.getD r [])).getD j []
      = List.zipWith g ((a.getD r []).getD j []) ((b.getD r []).getD j []) :=
    getD_zipWith (fun pa pb => List.zipWith g pa pb)
      (a.getD r []) (b.getD r []) [] [] hrlen j
  rw [h2]
  exact getD_zipWith g _ _ d1 d2 (pixLen_eq_of_shape_eq h r j) ch

/-- `zipWith` preserves the width lists when the widths agree. -/
theorem rowLen_zipWith {α β γ : Type} (g : α → β → γ) (ra : List (List α)) (rb : List (List β))
    (h : ra.map List.length = rb.map List.length) :
    (List.zipWith (fun pa pb => List.zipWith g pa pb) ra rb).map List.length = ra.map List.length := by
  induction ra generalizing rb with
  | nil => simp
  | cons p ps ih =>
      cases rb with
      | nil => simp at h
      | cons q qs =>
          simp only [List.map_cons, List.cons.injEq] at h
          simp only [List.zipWith_cons_cons, List.map_cons, List.length_zipWith,
            h.1, min_self, List.cons.injEq, true_and]
          exact ih qs h.2

theorem shape_imgZip {α β γ : Type} (g : α → β → γ) (a : Image α) (b : Image β)
    (h : shape a = shape b) : shape (imgZip g a b) = shape a := by
  unfold shape imgZip
  induction a generalizing b with
  | nil => simp
  | cons ra ras ih =>
      cases b with
      | nil => simp [shape] at h
      | cons rb rbs =>
          simp only [shape, List.map_cons, List.cons.injEq] at h
          simp only [List.zipWith_cons_cons, List.map_cons, List.cons.injEq]
          constructor
          · exact rowLen_zipWith g ra rb h.1
          · exact ih rbs (by simpa [shape] using h.2)

/-! ## Pointwise description of the accumulation loop -/

theorem pxD_imgScale (w : ℝ) (img : Image ℝ) (r j ch : ℕ) :
    pxD (imgScale w img) 0 r j ch = w * pxD img 0 r j ch := by
  have h := pxD_imgMap (fun v => w * v) img 0 r j ch
  simpa using h

theorem pxD_imgZero (img : Image ℝ) (r j ch : ℕ) :
    pxD (imgZero img) 0 r j ch = 0 := by
  have h := pxD_imgMap (fun _ : ℝ => (0 : ℝ)) img 0 r j ch
  simpa using h

theorem pxD_toFloat (f : Frame) (r j ch : ℕ) :
    pxD (toFloat f) 0 r j ch = ((pxD f 0 r j ch : ℕ) : ℝ) := by
  have h := pxD_imgMap (fun v : ℕ => (v : ℝ)) f 0 r j ch
  simpa using h

theorem pxD_imgAdd (a b : Image ℝ) (h : shape a = shape b) (r j ch : ℕ) :
    pxD (imgAdd a b) 0 r j ch = pxD a 0 r j ch + pxD b 0 r j ch := by
  have h' := pxD_imgZip (fun x y => x + y) a b 0 0 h r j ch
  simpa using h'

theorem shape_imgScale (w : ℝ) (img : Image ℝ) : shape (imgScale w img) = shape img :=
  shape_imgMap _ img

theorem shape_imgZero (img : Image ℝ) : shape (imgZero img) = shape img :=
  shape_imgMap _ img

theorem shape_imgAdd (a b : Image ℝ) (h : shape a = shape b) :
    shape (imgAdd a b) = shape a :=
  shape_imgZip _ a b h

/-- Shape invariant of the accumulation loop. -/
theorem shape_accum (l : List (ℝ × Image ℝ)) (acc : Image ℝ)
    (hl : ∀ p ∈ l, shape p.2 = shape acc) :
    shape (l.foldl (fun a wf => imgAdd a (imgScale wf.1 wf.2)) acc) = shape acc := by
  induction l generalizing acc with
  | nil => simp
  | cons wf t ih =>
      have hwf : shape wf.2 = shape acc := hl wf (by simp)
      have hstep : shape (imgAdd acc (imgScale wf.1 wf.2)) = shape acc := by
        rw [shape_imgAdd acc _ (by rw [shape_imgScale, hwf])]
      simp only [List.foldl_cons]
      rw [ih (imgAdd acc (imgScale wf.1 wf.2))
        (fun p hp => by rw [hstep]; exact hl p (by simp [hp])), hstep]

/-- Sample-level description of the accumulation loop: each sample of the
result is the sample of the accumulator plus the weighted sum of the
corresponding samples. -/
theorem pxD_accum (l : List (ℝ × Image ℝ)) (acc : Image ℝ)
    (hl : ∀ p ∈ l, shape p.2 = shape acc) (r j ch : ℕ) :
    pxD (l.foldl (fun a wf => imgAdd a (imgScale wf.1 wf.2)) acc) 0 r j ch
      = pxD acc 0 r j ch + (l.map (fun wf => wf.1 * pxD wf.2 0 r j ch)).sum := by
  induction l generalizing acc with
  | nil => simp
  | cons wf t ih =>
      have hwf : shape wf.2 = shape acc := hl wf (by simp)
      have hstep : shape (imgAdd acc (imgScale wf.1 wf.2)) = shape acc := by
        rw [shape_imgAdd acc _ (by rw [shape_imgScale, hwf])]
      simp only [List.foldl_cons, List.map_cons, List.sum_cons]
      rw [ih (imgAdd acc (imgScale wf.1 wf.2))
        (fun p hp => by rw [hstep]; exact hl p (by simp [hp]))]
      rw [pxD_imgAdd acc _ (by rw [shape_imgScale, hwf]), pxD_imgScale]
      ring

/-- A successful `weightedSum` call: the result has the shape of the first
frame and each of its samples is the indexed weighted sum `blendAt`. -/
theorem weightedSum_eq_some {ws : List ℝ} {fs : List (Image ℝ)} {g : Image ℝ}
    (h : weightedSum ws fs = some g) :
    (∃ f0 rest, fs = f0 :: rest ∧ shape g = shape f0 ∧ (∀ f ∈ fs, shape f = shape f0))
      ∧ ∀ r j ch, pxD g 0 r j ch = blendAt ws fs r j ch := by
  match fs with
  | [] => simp [weightedSum] at h
  | f0 :: rest =>
      simp only [weightedSum] at h
      by_cases hs : ∀ f ∈ f0 :: rest, shape f = shape f0
      · rw [if_pos hs] at h
        have hg : g = (ws.zip (f0 :: rest)).foldl
            (fun acc wf => imgAdd acc (imgScale wf.1 wf.2)) (imgZero f0) :=
          (Option.some.inj h).symm
        have hmem : ∀ p ∈ ws.zip (f0 :: rest), shape p.2 = shape (imgZero f0) := by
          intro p hp
          rw [shape_imgZero]
          exact hs p.2 (List.of_mem_zip hp).2
        refine ⟨⟨f0, rest, rfl, ?_, hs⟩, ?_⟩
        · rw [hg, shape_accum _ _ hmem, shape_imgZero]
        · intro r j ch
          rw [hg, pxD_accum _ _ hmem, pxD_imgZero, zero_add]
          rfl
      · rw [if_neg hs] at h
        exact absurd h (by simp)

/-- A window containing two frames of different shape makes the
accumulation raise. -/
theorem weightedSum_none_of_mismatch (ws : List ℝ) (fs : List (Image ℝ))
    (h : ∃ a ∈ fs, ∃ b ∈ fs, shape a ≠ shape b) :
    weightedSum ws fs = none := by
  obtain ⟨a, ha, b, hb, hab⟩ := h
  match fs with
  | [] => simp at ha
  | f0 :: rest =>
      simp only [weightedSum]
      rw [if_neg]
      intro hall
      exact hab ((hall a ha).trans (hall b hb).symm)

/-! ## Weight vector lemmas -/

theorem sum_map_div (l : List ℝ) (s : ℝ) :
    (l.map (fun x => x / s)).sum = l.sum / s := by
  induction l with
  | nil => simp
  | cons a t ih => simp [ih, add_div]

theorem weightsRaw_length (n c : ℕ) (d : ℝ) : (weightsRaw n c d).length = n := by
  simp [weightsRaw]

theorem weightsRaw_pos (n c : ℕ) (d : ℝ) : ∀ x ∈ weightsRaw n c d, 0 < x := by
  intro x hx
  simp only [weightsRaw, List.mem_map] at hx
  obtain ⟨k, _, rfl⟩ := hx
  exact Real.exp_pos _

theorem weightsRaw_sum_pos (n c : ℕ) (d : ℝ) (hn : 0 < n) :
    0 < (weightsRaw n c d).sum := by
  refine List.sum_pos _ (weightsRaw_pos n c d) ?_
  intro hnil
  have := weightsRaw_length n c d
  rw [hnil] at this
  simp at this
  omega

theorem normWeights_length (ws : List ℝ) : (normWeights ws).length = ws.length := by
  simp [normWeights]

theorem normWeights_sum (ws : List ℝ) (h : ws.sum ≠ 0) :
    (normWeights ws).sum = 1 := by
  rw [normWeights, sum_map_div, div_self h]

theorem normWeights_nonneg (ws : List ℝ) (hpos : ∀ x ∈ ws, 0 < x) :
    ∀ x ∈ normWeights ws, 0 ≤ x := by
  intro x hx
  simp only [normWeights, List.mem_map] at hx
  obtain ⟨y, hy, rfl⟩ := hx
  rcases Nat.eq_zero_or_pos ws.length with h0 | h0
  · rw [List.length_eq_zero] at h0
    rw [h0] at hy
    simp at hy
  · have hsum : 0 < ws.sum := by
      refine List.sum_pos _ hpos ?_
      intro hnil
      rw [hnil] at h0
      simp at h0
    exact div_nonneg (le_of_lt (hpos y hy)) (le_of_lt hsum)

theorem basicWeights_length (n c : ℕ) : (basicWeights n c).length = n := by
  rw [basicWeights, normWeights_length, weightsRaw_length]

theorem enhancedWeights_length (n c : ℕ) : (enhancedWeights n c).length = n := by
  rw [enhancedWeights, normWeights_length, weightsRaw_length]

theorem basicWeights_sum (n c : ℕ) (hn : 0 < n) : (basicWeights n c).sum = 1 :=
  normWeights_sum _ (ne_of_gt (weightsRaw_sum_pos n c 0.5 hn))

theorem enhancedWeights_sum (n c : ℕ) (hn : 0 < n) : (enhancedWeights n c).sum = 1 :=
  normWeights_sum _ (ne_of_gt (weightsRaw_sum_pos n c 1 hn))

theorem weightsRaw_getD (n c : ℕ) (d : ℝ) (k : ℕ) (hk : k < n) :
    (weightsRaw n c d).getD k 0 = Real.exp (-(d * ((k : ℝ) - (c : ℝ)) ^ 2)) := by
  rw [weightsRaw, List.getD_eq_getElem?_getD, List.getElem?_map, List.getElem?_range hk]
  rfl

/-! ## clipByte lemmas -/

theorem clipByte_le (x : ℝ) : clipByte x ≤ 255 := by
  rw [clipByte]
  have h : min (max x 0) 255 ≤ ((255 : ℕ) : ℝ) := by
    push_cast
    exact min_le_right _ _
  calc Nat.floor (min (max x 0) 255) ≤ Nat.floor (((255 : ℕ) : ℝ)) := Nat.floor_mono h
    _ = 255 := Nat.floor_natCast 255

theorem clipByte_zero : clipByte 0 = 0 := by
  rw [clipByte]
  norm_num

theorem clipByte_coe (v : ℕ) (hv : v ≤ 255) : clipByte ((v : ℕ) : ℝ) = v := by
  rw [clipByte]
  have h1 : max ((v : ℕ) : ℝ) 0 = ((v : ℕ) : ℝ) := max_eq_left (Nat.cast_nonneg v)
  have h2 : min ((v : ℕ) : ℝ) 255 = ((v : ℕ) : ℝ) := by
    refine min_eq_left ?_
    have : ((v : ℕ) : ℝ) ≤ ((255 : ℕ) : ℝ) := Nat.cast_le.mpr hv
    simpa using this
  rw [h1, h2, Nat.floor_natCast]

/-! ## Loop lemmas -/

theorem smoothLoop_length (f : ℕ → Option Frame) (l : List ℕ) (out : List Frame)
    (h : smoothLoop f l = some out) : out.length = l.length := by
  induction l generalizing out with
  | nil =>
      simp only [smoothLoop] at h
      rw [← Option.some.inj h]
      rfl
  | cons i t ih =>
      simp only [smoothLoop] at h
      cases hf : f i with
      | none => rw [hf] at h; simp at h
      | some g =>
          rw [hf] at h
          cases hl : smoothLoop f t with
          | none => rw [hl] at h; simp at h
          | some gs =>
              rw [hl] at h
              rw [← Option.some.inj h]
              simp [ih gs hl]

theorem smoothLoop_none (f : ℕ → Option Frame) (l : List ℕ) (i : ℕ)
    (hi : i ∈ l) (hf : f i = none) : smoothLoop f l = none := by
  induction l with
  | nil => simp at hi
  | cons j t ih =>
      simp only [smoothLoop]
      rcases List.mem_cons.mp hi with rfl | hmem
      · rw [hf]
      · cases hj : f j with
        | none => rfl
        | some g => rw [ih hmem]

/-! ## Solid-colour frames under the smoothing pipeline -/

theorem zip_replicate_self {α β : Type} (ws : List α) (x : β) :
    ws.zip (List.replicate ws.length x) = ws.map (fun w => (w, x)) := by
  induction ws with
  | nil => simp
  | cons a t ih => simp [List.replicate_succ, ih]

theorem imgScale_replicate (w : ℝ) (h wd : ℕ) (p : List ℝ) :
    imgScale w (List.replicate h (List.replicate wd p))
      = List.replicate h (List.replicate wd (p.map (fun v => w * v))) := by
  simp [imgScale, imgMap, List.map_replicate]

theorem imgAdd_replicate (h wd : ℕ) (p q : List ℝ) :
    imgAdd (List.replicate h (List.replicate wd p)) (List.replicate h (List.replicate wd q))
      = List.replicate h (List.replicate wd (List.zipWith (fun x y => x + y) p q)) := by
  simp [imgAdd, imgZip, List.zipWith_replicate, min_self]

/-- Accumulating a constant window: the result is the constant image whose
pixel is the start pixel plus `(Σ weights) •` the window pixel. -/
theorem accum_const (ws : List ℝ) (h wd : ℕ) (a1 a2 a3 v1 v2 v3 : ℝ) :
    (ws.map (fun w => (w, List.replicate h (List.replicate wd [v1, v2, v3])))).foldl
        (fun acc wf => imgAdd acc (imgScale wf.1 wf.2))
        (List.replicate h (List.replicate wd [a1, a2, a3]))
      = List.replicate h (List.replicate wd
          [a1 + ws.sum * v1, a2 + ws.sum * v2, a3 + ws.sum * v3]) := by
  induction ws generalizing a1 a2 a3 with
  | nil => simp
  | cons w t ih =>
      simp only [List.map_cons, List.foldl_cons, List.sum_cons]
      rw [imgScale_replicate, imgAdd_replicate]
      simp only [List.map_cons, List.map_nil, List.zipWith_cons_cons, List.zipWith_nil_right]
      rw [ih]
      have hpix : [a1 + w * v1 + t.sum * v1, a2 + w * v2 + t.sum * v2, a3 + w * v3 + t.sum * v3]
          = [a1 + (w + t.sum) * v1, a2 + (w + t.sum) * v2, a3 + (w + t.sum) * v3] := by
        simp only [List.cons.injEq, and_true]
        refine ⟨by ring, by ring, by ring⟩
      rw [hpix]

theorem toFloat_solid (h wd v1 v2 v3 : ℕ) :
    toFloat (solidF h wd v1 v2 v3)
      = List.replicate h (List.replicate wd [(v1 : ℝ), (v2 : ℝ), (v3 : ℝ)]) := by
  simp [toFloat, imgMap, solidF, List.map_replicate]

theorem imgZero_solid (h wd : ℕ) (x1 x2 x3 : ℝ) :
    imgZero (List.replicate h (List.replicate wd [x1, x2, x3]))
      = List.replicate h (List.replicate wd [(0 : ℝ), 0, 0]) := by
  simp [imgZero, imgMap, List.map_replicate]

/-- Basic-mode smoothing of a window of identical solid frames is the
identity (the weights sum to one). -/
theorem temporal_smooth_solid (n c h wd v1 v2 v3 : ℕ) (hn : 1 ≤ n)
    (h1 : v1 ≤ 255) (h2 : v2 ≤ 255) (h3 : v3 ≤ 255) :
    DiffusionService.temporal_smooth (List.replicate n (solidF h wd v1 v2 v3)) c
      = some (solidF h wd v1 v2 v3) := by
  match n, hn with
  | 1, _ => simp [DiffusionService.temporal_smooth]
  | (m + 2), _ =>
      rw [show List.replicate (m + 2) (solidF h wd v1 v2 v3)
            = solidF h wd v1 v2 v3 :: solidF h wd v1 v2 v3 :: List.replicate m (solidF h wd v1 v2 v3)
          from by simp [List.replicate_succ]]
      rw [DiffusionService.temporal_smooth]
      have hlen : (solidF h wd v1 v2 v3 :: solidF h wd v1 v2 v3 ::
          List.replicate m (solidF h wd v1 v2 v3)).length = m + 2 := by
        simp
      rw [show (solidF h wd v1 v2 v3 :: solidF h wd v1 v2 v3 ::
            List.replicate m (solidF h wd v1 v2 v3)).map toFloat
          = toFloat (solidF h wd v1 v2 v3) :: toFloat (solidF h wd v1 v2 v3) ::
            List.replicate m (toFloat (solidF h wd v1 v2 v3))
          from by simp [List.map_replicate]]
      rw [weightedSum]
      rw [if_pos ?hshape]
      case hshape =>
        intro f hf
        rcases List.mem_cons.mp hf with rfl | hf
        · rfl
        rcases List.mem_cons.mp hf with rfl | hf
        · rfl
        · rw [(List.mem_replicate.mp hf).2]
      have hzip : (basicWeights (solidF h wd v1 v2 v3 :: solidF h wd v1 v2 v3 ::
            List.replicate m (solidF h wd v1 v2 v3)).length c).zip
            (toFloat (solidF h wd v1 v2 v3) :: toFloat (solidF h wd v1 v2 v3) ::
              List.replicate m (toFloat (solidF h wd v1 v2 v3)))
          = (basicWeights (m + 2) c).map
              (fun w => (w, List.replicate h (List.replicate wd [(v1 : ℝ), (v2 : ℝ), (v3 : ℝ)]))) := by
        rw [hlen]
        rw [show toFloat (solidF h wd v1 v2 v3) :: toFloat (solidF h wd v1 v2 v3) ::
              List.replicate m (toFloat (solidF h wd v1 v2 v3))
            = List.replicate ((basicWeights (m + 2) c).length) (toFloat (solidF h wd v1 v2 v3))
            from by rw [basicWeights_length]; simp [List.replicate_succ]]
        rw [zip_replicate_self, toFloat_solid]
      rw [hzip, toFloat_solid, imgZero_solid]
      rw [accum_const, basicWeights_sum (m + 2) c (by omega)]
      simp only [one_mul, zero_add]
      simp only [Option.map_some', imgMap, List.map_replicate, List.map_cons, List.map_nil]
      rw [clipByte_coe v1 h1, clipByte_coe v2 h2, clipByte_coe v3 h3]
      rfl
      intro f hf
      simp at hf

theorem getD_zero3 (ch : ℕ) : ([(0 : ℝ), 0, 0]).getD ch 0 = 0 := by
  match ch with
  | 0 => rfl
  | 1 => rfl
  | 2 => rfl
  | (k + 3) => simp

theorem channelMean_zero (h wd : ℕ) (ch : ℕ) :
    channelMean (List.replicate h (List.replicate wd [(0 : ℝ), 0, 0])) ch = 0 := by
  rw [channelMean]
  have hrow : (List.replicate wd ([(0 : ℝ), 0, 0])).map (fun p => p.getD ch 0)
      = List.replicate wd (0 : ℝ) := by
    rw [List.map_replicate, getD_zero3]
  rw [show (List.replicate h (List.replicate wd [(0 : ℝ), 0, 0])).map
        (fun row => (row.map (fun p => p.getD ch 0)).sum)
      = List.replicate h ((List.replicate wd (0 : ℝ)).sum) from by
    rw [List.map_replicate, hrow]]
  simp

theorem color_ratio_of_zero_center (sm : Image ℝ) (h wd : ℕ) (ch : ℕ) :
    DiffusionService.color_ratio sm (List.replicate h (List.replicate wd [(0 : ℝ), 0, 0])) ch
      = 0.8 := by
  rw [DiffusionService.color_ratio, channelMean_zero]
  rw [zero_div, max_eq_right (by norm_num)]
  exact min_eq_left (by norm_num)

/-- Enhanced-mode smoothing of a window of identical all-zero solid frames
returns the zero frame (the blend is zero and the `0.8` colour ratio fixes
zero). -/
theorem enhanced_temporal_smooth_zero (n c h wd : ℕ) (hn : 1 ≤ n) (hc : c < n) :
    DiffusionService.enhanced_temporal_smooth (List.replicate n (solidF h wd 0 0 0)) c
      = some (solidF h wd 0 0 0) := by
  match n, hn with
  | 1, _ => simp [DiffusionService.enhanced_temporal_smooth]
  | (m + 2), _ =>
      rw [show List.replicate (m + 2) (solidF h wd 0 0 0)
            = solidF h wd 0 0 0 :: solidF h wd 0 0 0 :: List.replicate m (solidF h wd 0 0 0)
          from by simp [List.replicate_succ]]
      rw [DiffusionService.enhanced_temporal_smooth]
      · rw [show (solidF h wd 0 0 0 :: solidF h wd 0 0 0 ::
              List.replicate m (solidF h wd 0 0 0)).map toFloat
            = toFloat (solidF h wd 0 0 0) :: toFloat (solidF h wd 0 0 0) ::
              List.replicate m (toFloat (solidF h wd 0 0 0))
            from by simp [List.map_replicate]]
        rw [weightedSum]
        rw [if_pos ?hshape]
        case hshape =>
          intro f hf
          rcases List.mem_cons.mp hf with rfl | hf
          · rfl
          rcases List.mem_cons.mp hf with rfl | hf
          · rfl
          · rw [(List.mem_replicate.mp hf).2]
        have hlen : (solidF h wd 0 0 0 :: solidF h wd 0 0 0 ::
            List.replicate m (solidF h wd 0 0 0)).length = m + 2 := by simp
        have hzip : (enhancedWeights (solidF h wd 0 0 0 :: solidF h wd 0 0 0 ::
              List.replicate m (solidF h wd 0 0 0)).length c).zip
              (toFloat (solidF h wd 0 0 0) :: toFloat (solidF h wd 0 0 0) ::
                List.replicate m (toFloat (solidF h wd 0 0 0)))
            = (enhancedWeights (m + 2) c).map
                (fun w => (w, List.replicate h (List.replicate wd [(0 : ℝ), 0, 0]))) := by
          rw [hlen]
          rw [show toFloat (solidF h wd 0 0 0) :: toFloat (solidF h wd 0 0 0) ::
                List.replicate m (toFloat (solidF h wd 0 0 0))
              = List.replicate ((enhancedWeights (m + 2) c).length) (toFloat (solidF h wd 0 0 0))
              from by rw [enhancedWeights_length]; simp [List.replicate_succ]]
          rw [zip_replicate_self, toFloat_solid]
          norm_num
        rw [hzip, toFloat_solid, imgZero_solid]
        norm_num
        rw [accum_const]
        simp only [mul_zero, add_zero]
        have hget : ((List.replicate h (List.replicate wd [(0 : ℝ), 0, 0]) ::
            List.replicate h (List.replicate wd [(0 : ℝ), 0, 0]) ::
            List.replicate m (List.replicate h (List.replicate wd [(0 : ℝ), 0, 0])))
              : List (Image ℝ))[c]?
            = some (List.replicate h (List.replicate wd [(0 : ℝ), 0, 0])) := by
          rw [show List.replicate h (List.replicate wd [(0 : ℝ), 0, 0]) ::
                List.replicate h (List.replicate wd [(0 : ℝ), 0, 0]) ::
                List.replicate m (List.replicate h (List.replicate wd [(0 : ℝ), 0, 0]))
              = List.replicate (m + 2) (List.replicate h (List.replicate wd [(0 : ℝ), 0, 0]))
              from by simp [List.replicate_succ]]
          rw [List.getElem?_replicate, if_pos hc]
        rw [hget]
        show some (imgMap clipByte (DiffusionService.apply_color_consistency
            (List.replicate h (List.replicate wd [(0 : ℝ), 0, 0]))
            (List.replicate h (List.replicate wd [(0 : ℝ), 0, 0]))))
          = some (solidF h wd 0 0 0)
        rw [show DiffusionService.apply_color_consistency
              (List.replicate h (List.replicate wd [(0 : ℝ), 0, 0]))
              (List.replicate h (List.replicate wd [(0 : ℝ), 0, 0]))
            = List.replicate h (List.replicate wd [(0 : ℝ), 0, 0]) from ?hcc]
        case hcc =>
          rw [DiffusionService.apply_color_consistency]
          rw [List.map_replicate, List.map_replicate]
          have hpix : ([(0 : ℝ), 0, 0]).mapIdx
              (fun ch v => v * DiffusionService.color_ratio
                (List.replicate h (List.replicate wd [(0 : ℝ), 0, 0]))
                (List.replicate h (List.replicate wd [(0 : ℝ), 0, 0])) ch)
              = [(0 : ℝ), 0, 0] := by
            simp [List.mapIdx_cons]
          rw [hpix]
        rw [show imgMap clipByte (List.replicate h (List.replicate wd [(0 : ℝ), 0, 0]))
              = List.replicate h (List.replicate wd [clipByte 0, clipByte 0, clipByte 0])
            from by simp [imgMap, List.map_replicate]]
        rw [clipByte_zero]
        rfl
      · intro f hf
        simp at hf

/-! ## The two basic-mode implementations coincide -/

/-- The `VideoProcessor` copy of the basic smoothing loop is definitionally
the `DiffusionService` one. -/
theorem vp_apply_eq_basic (frames : List Frame) (w : ℕ) :
    VideoProcessor.apply_temporal_consistency frames w
      = DiffusionService.apply_temporal_consistency frames w := rfl

/-- Length preservation of the basic-mode top-level call. -/
theorem apply_basic_length (frames : List Frame) (w : ℕ) :
    (DiffusionService.apply_temporal_consistency frames w).length = frames.length := by
  rw [DiffusionService.apply_temporal_consistency]
  by_cases h : frames.length < w
  · rw [if_pos h]
  · rw [if_neg h]
    cases hsl : smoothLoop
        (fun i => DiffusionService.temporal_smooth (windowAt frames w i) (i - winStart i w))
        (List.range frames.length) with
    | none => rfl
    | some out =>
        have hlen := smoothLoop_length _ _ _ hsl
        rw [List.length_range] at hlen
        exact hlen

/-- Length preservation of the enhanced-mode top-level call. -/
theorem apply_enhanced_length (frames : List Frame) (w : ℕ) :
    (DiffusionService.apply_enhanced_temporal_consistency frames w).length = frames.length := by
  rw [DiffusionService.apply_enhanced_temporal_consistency]
  by_cases h : frames.length < w
  · rw [if_pos h]
  · rw [if_neg h]
    cases hsl : smoothLoop
        (fun i => DiffusionService.enhanced_temporal_smooth (windowAt frames w i) (i - winStart i w))
        (List.range frames.length) with
    | none => rfl
    | some out =>
        have hlen := smoothLoop_length _ _ _ hsl
        rw [List.length_range] at hlen
        exact hlen

/-! ## Claim theorems -/

/-- C2: in every window the raw weight of member `k` is
`exp(-decay * (k - center_offset)^2)` with decay `0.5` (basic) and `1.0`
(enhanced), and the normalised weight vector is non-negative and sums to
`1` (hence within the `1e-6` tolerance). -/
theorem spec_C2 (n c : ℕ) (hn : 0 < n) :
    (∀ k, k < n →
      (weightsRaw n c 0.5).getD k 0 = Real.exp (-(0.5 * ((k : ℝ) - (c : ℝ)) ^ 2)) ∧
      (weightsRaw n c 1).getD k 0 = Real.exp (-(1 * ((k : ℝ) - (c : ℝ)) ^ 2)))
    ∧ (∀ x ∈ basicWeights n c, 0 ≤ x)
    ∧ (∀ x ∈ enhancedWeights n c, 0 ≤ x)
    ∧ |(basicWeights n c).sum - 1| ≤ 1e-6
    ∧ |(enhancedWeights n c).sum - 1| ≤ 1e-6 := by
  refine ⟨fun k hk => ⟨weightsRaw_getD n c 0.5 k hk, weightsRaw_getD n c 1 k hk⟩,
    normWeights_nonneg _ (weightsRaw_pos n c 0.5),
    normWeights_nonneg _ (weightsRaw_pos n c 1), ?_, ?_⟩
  · rw [basicWeights_sum n c hn]
    norm_num
  · rw [enhancedWeights_sum n c hn]
    norm_num

/-- Witness for C2 at the concrete window size `3` with center offset `1`. -/
theorem spec_C2_witness :
    (∀ x ∈ basicWeights 3 1, 0 ≤ x) ∧ |(basicWeights 3 1).sum - 1| ≤ 1e-6 :=
  ⟨(spec_C2 3 1 (by norm_num)).2.1, (spec_C2 3 1 (by norm_num)).2.2.2.1⟩

/-- C3: the window bounds are `start = max(0, i - w // 2)` and
`end = min(len, i + w // 2 + 1)`; `start = 0` at `i = 0` and
`end = len` at `i = len - 1`; the window is exactly `frames[start:end]`
and every index it reads lies inside the sequence. -/
theorem spec_C3 (frames : List Frame) (w i : ℕ) (hw : w ≤ frames.length)
    (hi : i < frames.length) :
    ((winStart i w : ℤ) = max 0 ((i : ℤ) - (w : ℤ) / 2))
    ∧ winStop frames.length i w = min frames.length (i + w / 2 + 1)
    ∧ winStart 0 w = 0
    ∧ (i = frames.length - 1 → winStop frames.length i w = frames.length)
    ∧ winStop frames.length i w ≤ frames.length
    ∧ winStart i w ≤ i
    ∧ i < winStop frames.length i w
    ∧ (windowAt frames w i).length = winStop frames.length i w - winStart i w
    ∧ (∀ j, j < winStop frames.length i w - winStart i w →
        (windowAt frames w i).get? j = frames.get? (winStart i w + j)) := by
  refine ⟨?_, rfl, ?_, ?_, ?_, ?_, ?_, ?_, ?_⟩
  · rw [winStart]
    rw [show (w : ℤ) / 2 = ((w / 2 : ℕ) : ℤ) from (Int.ofNat_div w 2).symm]
    omega
  · rw [winStart, Nat.zero_sub]
  · intro hlast
    rw [winStop]
    refine min_eq_left ?_
    omega
  · exact min_le_left _ _
  · exact Nat.sub_le _ _
  · rw [winStop]
    refine lt_min hi ?_
    omega
  · rw [windowAt, List.length_take, List.length_drop]
    have h1 : winStop frames.length i w ≤ frames.length := min_le_left _ _
    omega
  · intro j hj
    rw [windowAt, List.get?_take hj, List.get?_drop]

/-- Witness for C3: three frames, window size `3`, last index `i = 2`. -/
theorem spec_C3_witness :
    winStart 2 3 ≤ 2
    ∧ winStop (List.replicate 3 (solidF 1 1 0 0 0)).length 2 3
        = (List.replicate 3 (solidF 1 1 0 0 0)).length
    ∧ (windowAt (List.replicate 3 (solidF 1 1 0 0 0)) 3 2).length
        = winStop (List.replicate 3 (solidF 1 1 0 0 0)).length 2 3 - winStart 2 3 := by
  have h := spec_C3 (List.replicate 3 (solidF 1 1 0 0 0)) 3 2 (by simp) (by simp)
  exact ⟨h.2.2.2.2.2.1, h.2.2.2.1 (by simp), h.2.2.2.2.2.2.2.1⟩

/-- C5: a sequence shorter than the window size is passed through
unchanged by all three smoothing entry points. -/
theorem spec_C5 (frames : List Frame) (w : ℕ) (h : frames.length < w) :
    DiffusionService.apply_temporal_consistency frames w = frames
    ∧ DiffusionService.apply_enhanced_temporal_consistency frames w = frames
    ∧ VideoProcessor.apply_temporal_consistency frames w = frames := by
  refine ⟨?_, ?_, ?_⟩
  · rw [DiffusionService.apply_temporal_consistency, if_pos h]
  · rw [DiffusionService.apply_enhanced_temporal_consistency, if_pos h]
  · rw [vp_apply_eq_basic, DiffusionService.apply_temporal_consistency, if_pos h]

/-- Witness for C5: one frame, window size `2`. -/
theorem spec_C5_witness :
    DiffusionService.apply_temporal_consistency [solidF 1 1 0 0 0] 2 = [solidF 1 1 0 0 0]
    ∧ DiffusionService.apply_enhanced_temporal_consistency [solidF 1 1 0 0 0] 2
        = [solidF 1 1 0 0 0]
    ∧ VideoProcessor.apply_temporal_consistency [solidF 1 1 0 0 0] 2 = [solidF 1 1 0 0 0] :=
  spec_C5 [solidF 1 1 0 0 0] 2 (by simp)

/-- C6 (counterexample): on the empty sequence the smoothing calls do not
fail — they return the empty sequence (the `len(frames) < window_size`
pass-through fires before anything else, and no `InvalidInput` error
exists in the code). -/
theorem spec_C6_counterexample :
    DiffusionService.apply_enhanced_temporal_consistency [] 5 = []
    ∧ DiffusionService.apply_temporal_consistency [] 3 = []
    ∧ VideoProcessor.apply_temporal_consistency [] 5 = [] := by
  refine ⟨?_, ?_, ?_⟩
  · rw [DiffusionService.apply_enhanced_temporal_consistency, if_pos (by norm_num)]
  · rw [DiffusionService.apply_temporal_consistency, if_pos (by norm_num)]
  · rw [vp_apply_eq_basic, DiffusionService.apply_temporal_consistency, if_pos (by norm_num)]

/-- C6 (amended): for the empty sequence and any window size, every
smoothing entry point returns the empty sequence; no error is raised. -/
theorem spec_C6_amended (w : ℕ) :
    DiffusionService.apply_enhanced_temporal_consistency [] w = []
    ∧ DiffusionService.apply_temporal_consistency [] w = []
    ∧ VideoProcessor.apply_temporal_consistency [] w = [] := by
  rcases Nat.eq_zero_or_pos w with rfl | hw
  · refine ⟨?_, ?_, ?_⟩
    · rw [DiffusionService.apply_enhanced_temporal_consistency, if_neg (by simp)]
      rfl
    · rw [DiffusionService.apply_temporal_consistency, if_neg (by simp)]
      rfl
    · rw [vp_apply_eq_basic, DiffusionService.apply_temporal_consistency, if_neg (by simp)]
      rfl
  · refine ⟨?_, ?_, ?_⟩
    · rw [DiffusionService.apply_enhanced_temporal_consistency, if_pos (by simpa using hw)]
    · rw [DiffusionService.apply_temporal_consistency, if_pos (by simpa using hw)]
    · rw [vp_apply_eq_basic, DiffusionService.apply_temporal_consistency,
        if_pos (by simpa using hw)]

/-- C8: for every non-empty input and every window size, each smoothing
entry point returns a sequence of the same length as the input (the input
itself is untouched — the embedding is pure, and the code only ever
appends smoothed copies to a fresh list). -/
theorem spec_C8 (frames : List Frame) (w : ℕ) (hne : 0 < frames.length) :
    (DiffusionService.apply_temporal_consistency frames w).length = frames.length
    ∧ (DiffusionService.apply_enhanced_temporal_consistency frames w).length = frames.length
    ∧ (VideoProcessor.apply_temporal_consistency frames w).length = frames.length := by
  refine ⟨apply_basic_length frames w, apply_enhanced_length frames w, ?_⟩
  rw [vp_apply_eq_basic]
  exact apply_basic_length frames w

/-- Witness for C8: one frame, window size `1` (the loop actually runs). -/
theorem spec_C8_witness :
    (DiffusionService.apply_temporal_consistency [solidF 1 1 0 0 0] 1).length
        = ([solidF 1 1 0 0 0] : List Frame).length
    ∧ (DiffusionService.apply_enhanced_temporal_consistency [solidF 1 1 0 0 0] 1).length
        = ([solidF 1 1 0 0 0] : List Frame).length
    ∧ (VideoProcessor.apply_temporal_consistency [solidF 1 1 0 0 0] 1).length
        = ([solidF 1 1 0 0 0] : List Frame).length :=
  spec_C8 [solidF 1 1 0 0 0] 1 (by simp)

/-- C10: the two basic-mode smoothing implementations are extensionally
equal for every input and every explicit window size (their bodies are
verbatim duplicates), and their default window sizes are `3`
(`DiffusionService`) versus `5` (`VideoProcessor`). -/
theorem spec_C10 :
    (∀ (frames : List Frame) (w : ℕ),
      DiffusionService.apply_temporal_consistency frames w
        = VideoProcessor.apply_temporal_consistency frames w)
    ∧ (∀ frames : List Frame,
      DiffusionService.apply_temporal_consistency_default frames
        = DiffusionService.apply_temporal_consistency frames 3)
    ∧ (∀ frames : List Frame,
      VideoProcessor.apply_temporal_consistency_default frames
        = VideoProcessor.apply_temporal_consistency frames 5) :=
  ⟨fun _ _ => rfl, fun _ => rfl, fun _ => rfl⟩

/-- C9: five identical solid-colour frames (every pixel `[100, 150, 200]`,
any resolution `h × wd`), window size `3`, basic mode: the output equals
the input exactly — blending identical frames with weights summing to one
is the identity. -/
theorem spec_C9 (h wd : ℕ) :
    DiffusionService.apply_temporal_consistency
        (List.replicate 5 (solidF h wd 100 150 200)) 3
      = List.replicate 5 (solidF h wd 100 150 200) := by
  rw [DiffusionService.apply_temporal_consistency]
  rw [if_neg (by simp)]
  have len5 : (List.replicate 5 (solidF h wd 100 150 200)).length = 5 := by simp
  have hrange : List.range (List.replicate 5 (solidF h wd 100 150 200)).length
      = [0, 1, 2, 3, 4] := by
    rw [len5]
    decide
  rw [hrange]
  have hsolid : ∀ n c : ℕ, 1 ≤ n →
      DiffusionService.temporal_smooth (List.replicate n (solidF h wd 100 150 200)) c
        = some (solidF h wd 100 150 200) := fun n c hn =>
    temporal_smooth_solid n c h wd 100 150 200 hn (by norm_num) (by norm_num) (by norm_num)
  have w0 : windowAt (List.replicate 5 (solidF h wd 100 150 200)) 3 0
      = List.replicate 2 (solidF h wd 100 150 200) := by
    rw [windowAt, len5, winStart, winStop]
    norm_num [List.drop_replicate, List.take_replicate]
  have w1 : windowAt (List.replicate 5 (solidF h wd 100 150 200)) 3 1
      = List.replicate 3 (solidF h wd 100 150 200) := by
    rw [windowAt, len5, winStart, winStop]
    norm_num [List.drop_replicate, List.take_replicate]
  have w2 : windowAt (List.replicate 5 (solidF h wd 100 150 200)) 3 2
      = List.replicate 3 (solidF h wd 100 150 200) := by
    rw [windowAt, len5, winStart, winStop]
    norm_num [List.drop_replicate, List.take_replicate]
  have w3 : windowAt (List.replicate 5 (solidF h wd 100 150 200)) 3 3
      = List.replicate 3 (solidF h wd 100 150 200) := by
    rw [windowAt, len5, winStart, winStop]
    norm_num [List.drop_replicate, List.take_replicate]
  have w4 : windowAt (List.replicate 5 (solidF h wd 100 150 200)) 3 4
      = List.replicate 2 (solidF h wd 100 150 200) := by
    rw [windowAt, len5, winStart, winStop]
    norm_num [List.drop_replicate, List.take_replicate]
  have s0 : DiffusionService.temporal_smooth
      (windowAt (List.replicate 5 (solidF h wd 100 150 200)) 3 0) (0 - winStart 0 3)
      = some (solidF h wd 100 150 200) := by
    rw [w0]
    exact hsolid 2 _ (by norm_num)
  have s1 : DiffusionService.temporal_smooth
      (windowAt (List.replicate 5 (solidF h wd 100 150 200)) 3 1) (1 - winStart 1 3)
      = some (solidF h wd 100 150 200) := by
    rw [w1]
    exact hsolid 3 _ (by norm_num)
  have s2 : DiffusionService.temporal_smooth
      (windowAt (List.replicate 5 (solidF h wd 100 150 200)) 3 2) (2 - winStart 2 3)
      = some (solidF h wd 100 150 200) := by
    rw [w2]
    exact hsolid 3 _ (by norm_num)
  have s3 : DiffusionService.temporal_smooth
      (windowAt (List.replicate 5 (solidF h wd 100 150 200)) 3 3) (3 - winStart 3 3)
      = some (solidF h wd 100 150 200) := by
    rw [w3]
    exact hsolid 3 _ (by norm_num)
  have s4 : DiffusionService.temporal_smooth
      (windowAt (List.replicate 5 (solidF h wd 100 150 200)) 3 4) (4 - winStart 4 3)
      = some (solidF h wd 100 150 200) := by
    rw [w4]
    exact hsolid 2 _ (by norm_num)
  have hsl : smoothLoop
      (fun i => DiffusionService.temporal_smooth
        (windowAt (List.replicate 5 (solidF h wd 100 150 200)) 3 i) (i - winStart i 3))
      [0, 1, 2, 3, 4]
      = some (List.replicate 5 (solidF h wd 100 150 200)) := by
    simp only [smoothLoop, s0, s1, s2, s3, s4]
    rfl
  rw [hsl]

/-! ## Mismatched frame dimensions -/

theorem windowAt_get? (frames : List Frame) (w i j : ℕ)
    (hj : j < winStop frames.length i w - winStart i w) :
    (windowAt frames w i).get? j = frames.get? (winStart i w + j) := by
  rw [windowAt, List.get?_take hj, List.get?_drop]

/-- Any window holding two frames of different shapes makes both smoothing
kernels raise. -/
theorem temporal_smooth_none_of_mismatch (window : List Frame) (c : ℕ)
    (Fi Fj : Frame) (hFi : Fi ∈ window) (hFj : Fj ∈ window)
    (hne : shape Fi ≠ shape Fj) :
    DiffusionService.temporal_smooth window c = none
    ∧ DiffusionService.enhanced_temporal_smooth window c = none := by
  have hws : ∀ ws, weightedSum ws (window.map toFloat) = none := fun ws =>
    weightedSum_none_of_mismatch ws _
      ⟨toFloat Fi, List.mem_map_of_mem _ hFi, toFloat Fj, List.mem_map_of_mem _ hFj,
        by rw [shape_toFloat, shape_toFloat]; exact hne⟩
  match window with
  | [] => simp at hFi
  | [f] =>
      have h1 : Fi = f := by simpa using hFi
      have h2 : Fj = f := by simpa using hFj
      exact absurd (by rw [h1, h2]) hne
  | a :: b :: t =>
      constructor
      · rw [DiffusionService.temporal_smooth]
        · rw [hws]
          rfl
        · intro f hf
          simp at hf
      · rw [DiffusionService.enhanced_temporal_smooth]
        · rw [hws]
        · intro f hf
          simp at hf

/-- With `window_size ≥ 2`, adjacent frames of unequal shape make the
whole smoothing pass raise internally; the exception handler swallows the
failure and returns the input unchanged. -/
theorem apply_mismatch_aux (frames : List Frame) (w : ℕ) (hw2 : 2 ≤ w)
    (hwlen : w ≤ frames.length) (i : ℕ) (Fi Fj : Frame)
    (hFi : frames.get? i = some Fi) (hFj : frames.get? (i + 1) = some Fj)
    (hne : shape Fi ≠ shape Fj) :
    smoothLoop
        (fun k => DiffusionService.temporal_smooth (windowAt frames w k) (k - winStart k w))
        (List.range frames.length) = none
    ∧ smoothLoop
        (fun k => DiffusionService.enhanced_temporal_smooth
          (windowAt frames w k) (k - winStart k w))
        (List.range frames.length) = none
    ∧ DiffusionService.apply_temporal_consistency frames w = frames
    ∧ DiffusionService.apply_enhanced_temporal_consistency frames w = frames := by
  have hi1 : i + 1 < frames.length := by
    by_contra hcon
    have hlen : frames.length ≤ i + 1 := by omega
    rw [List.get?_eq_none.mpr hlen] at hFj
    exact absurd hFj (by simp)
  have hii : i < frames.length := by omega
  have hs : winStart i w ≤ i := Nat.sub_le _ _
  have hie : i + 1 < winStop frames.length i w := by
    rw [winStop]
    refine lt_min hi1 ?_
    omega
  have hwin_i : (windowAt frames w i).get? (i - winStart i w) = some Fi := by
    rw [windowAt_get? frames w i _ (by omega)]
    rw [show winStart i w + (i - winStart i w) = i from by omega]
    exact hFi
  have hwin_j : (windowAt frames w i).get? (i + 1 - winStart i w) = some Fj := by
    rw [windowAt_get? frames w i _ (by omega)]
    rw [show winStart i w + (i + 1 - winStart i w) = i + 1 from by omega]
    exact hFj
  have hsm := temporal_smooth_none_of_mismatch (windowAt frames w i) (i - winStart i w)
    Fi Fj (List.get?_mem hwin_i) (List.get?_mem hwin_j) hne
  have hloop1 : smoothLoop
      (fun k => DiffusionService.temporal_smooth (windowAt frames w k) (k - winStart k w))
      (List.range frames.length) = none :=
    smoothLoop_none _ _ i (List.mem_range.mpr hii) hsm.1
  have hloop2 : smoothLoop
      (fun k => DiffusionService.enhanced_temporal_smooth
        (windowAt frames w k) (k - winStart k w))
      (List.range frames.length) = none :=
    smoothLoop_none _ _ i (List.mem_range.mpr hii) hsm.2
  refine ⟨hloop1, hloop2, ?_, ?_⟩
  · rw [DiffusionService.apply_temporal_consistency, if_neg (by omega), hloop1]
  · rw [DiffusionService.apply_enhanced_temporal_consistency, if_neg (by omega), hloop2]

/-- C7 (counterexample): three frames where the middle one has a different
height (`2 × 1` among `1 × 1` frames), window size `3`.  The weighted-sum
loop raises internally (the smoothing loop yields no result), but the
top-level call catches the exception and returns the input unchanged — a
successful call, not a `DimensionMismatch` failure reported to the
caller. -/
theorem spec_C7_counterexample :
    smoothLoop
        (fun k => DiffusionService.temporal_smooth
          (windowAt [solidF 1 1 0 0 0, solidF 2 1 0 0 0, solidF 1 1 0 0 0] 3 k)
          (k - winStart k 3))
        (List.range 3) = none
    ∧ DiffusionService.apply_temporal_consistency
        [solidF 1 1 0 0 0, solidF 2 1 0 0 0, solidF 1 1 0 0 0] 3
      = [solidF 1 1 0 0 0, solidF 2 1 0 0 0, solidF 1 1 0 0 0]
    ∧ DiffusionService.apply_enhanced_temporal_consistency
        [solidF 1 1 0 0 0, solidF 2 1 0 0 0, solidF 1 1 0 0 0] 3
      = [solidF 1 1 0 0 0, solidF 2 1 0 0 0, solidF 1 1 0 0 0]
    ∧ VideoProcessor.apply_temporal_consistency
        [solidF 1 1 0 0 0, solidF 2 1 0 0 0, solidF 1 1 0 0 0] 3
      = [solidF 1 1 0 0 0, solidF 2 1 0 0 0, solidF 1 1 0 0 0] := by
  have h := apply_mismatch_aux
    [solidF 1 1 0 0 0, solidF 2 1 0 0 0, solidF 1 1 0 0 0] 3
    (by norm_num) (by simp) 0 (solidF 1 1 0 0 0) (solidF 2 1 0 0 0) rfl rfl (by decide)
  refine ⟨?_, h.2.2.1, h.2.2.2, ?_⟩
  · have h1 := h.1
    simpa using h1
  · rw [vp_apply_eq_basic]
    exact h.2.2.1

/-- C7 (amended): if some pair of adjacent frames has different heights,
both at least `2` — a dimension mismatch NumPy's in-place broadcasting
cannot absorb, whichever frame the window's accumulator is built from —
and the window covers more than one frame (`2 ≤ w ≤ len`), then the
internal weighted sum raises, the exception handler swallows the failure,
and every smoothing entry point returns the original input as a
successful call; no `DimensionMismatch` error reaches the caller.
(Mismatches consisting only of size-one axes are outside this statement:
NumPy broadcasts them silently instead of raising.) -/
theorem spec_C7_amended (frames : List Frame) (w : ℕ) (hw2 : 2 ≤ w)
    (hwlen : w ≤ frames.length)
    (hmm : ∃ i Fi Fj, frames.get? i = some Fi ∧ frames.get? (i + 1) = some Fj
      ∧ Fi.length ≠ Fj.length ∧ 2 ≤ Fi.length ∧ 2 ≤ Fj.length) :
    DiffusionService.apply_temporal_consistency frames w = frames
    ∧ DiffusionService.apply_enhanced_temporal_consistency frames w = frames
    ∧ VideoProcessor.apply_temporal_consistency frames w = frames := by
  obtain ⟨i, Fi, Fj, h1, h2, hlen, _, _⟩ := hmm
  have h3 : shape Fi ≠ shape Fj := by
    intro hcon
    have hcon' := congrArg List.length hcon
    rw [shape, shape, List.length_map, List.length_map] at hcon'
    exact hlen hcon'
  have h := apply_mismatch_aux frames w hw2 hwlen i Fi Fj h1 h2 h3
  refine ⟨h.2.2.1, h.2.2.2, ?_⟩
  rw [vp_apply_eq_basic]
  exact h.2.2.1

/-- Witness for the amended C7: two frames of heights `2` and `3`
(neither height is `1`, so NumPy could not broadcast the mismatch),
window size `2`. -/
theorem spec_C7_witness :
    DiffusionService.apply_temporal_consistency
        [solidF 2 1 0 0 0, solidF 3 1 0 0 0] 2
      = [solidF 2 1 0 0 0, solidF 3 1 0 0 0]
    ∧ DiffusionService.apply_enhanced_temporal_consistency
        [solidF 2 1 0 0 0, solidF 3 1 0 0 0] 2
      = [solidF 2 1 0 0 0, solidF 3 1 0 0 0]
    ∧ VideoProcessor.apply_temporal_consistency
        [solidF 2 1 0 0 0, solidF 3 1 0 0 0] 2
      = [solidF 2 1 0 0 0, solidF 3 1 0 0 0] :=
  spec_C7_amended [solidF 2 1 0 0 0, solidF 3 1 0 0 0] 2
    (by norm_num) (by simp)
    ⟨0, solidF 2 1 0 0 0, solidF 3 1 0 0 0, rfl, rfl, by decide, by decide, by decide⟩

/-! ## Pointwise description of the smoothing kernels -/

theorem pxD_clip (g : Image ℝ) (r j ch : ℕ) :
    pxD (imgMap clipByte g) 0 r j ch = clipByte (pxD g 0 r j ch) := by
  have h := pxD_imgMap clipByte g 0 r j ch
  rw [clipByte_zero] at h
  exact h

theorem imgMap_clip_le (g : Image ℝ) :
    ∀ row ∈ imgMap clipByte g, ∀ p ∈ row, ∀ v ∈ p, v ≤ 255 := by
  intro row hrow p hp v hv
  simp only [imgMap, List.mem_map] at hrow
  obtain ⟨row0, _, rfl⟩ := hrow
  simp only [List.mem_map] at hp
  obtain ⟨p0, _, rfl⟩ := hp
  simp only [List.mem_map] at hv
  obtain ⟨x, _, rfl⟩ := hv
  exact clipByte_le x

theorem getD_mapIdx_mul (p : List ℝ) (g : ℕ → ℝ) (ch : ℕ) :
    (p.mapIdx (fun k v => v * g k)).getD ch 0 = (p.getD ch 0) * g ch := by
  induction p generalizing g ch with
  | nil => simp
  | cons a t ih =>
      rw [List.mapIdx_cons]
      cases ch with
      | zero => simp
      | succ m =>
          simp only [List.getD_cons_succ]
          exact ih (fun k => g (k + 1)) m

theorem pxD_apply_cc (sm center : Image ℝ) (r j ch : ℕ) :
    pxD (DiffusionService.apply_color_consistency sm center) 0 r j ch
      = pxD sm 0 r j ch * DiffusionService.color_ratio sm center ch := by
  rw [DiffusionService.apply_color_consistency, pxD, pxD]
  have h1 : ((sm.map (fun row => row.map (fun p =>
        p.mapIdx (fun k v => v * DiffusionService.color_ratio sm center k)))).getD r [])
      = (sm.getD r []).map (fun p =>
          p.mapIdx (fun k v => v * DiffusionService.color_ratio sm center k)) :=
    getD_map _ sm [] r
  rw [h1]
  have h2 : (((sm.getD r []).map (fun p =>
        p.mapIdx (fun k v => v * DiffusionService.color_ratio sm center k))).getD j [])
      = ((sm.getD r []).getD j []).mapIdx
          (fun k v => v * DiffusionService.color_ratio sm center k) :=
    getD_map _ (sm.getD r []) [] j
  rw [h2]
  exact getD_mapIdx_mul _ _ ch

theorem color_ratio_mem (sm center : Image ℝ) (ch : ℕ) :
    0.8 ≤ DiffusionService.color_ratio sm center ch
    ∧ DiffusionService.color_ratio sm center ch ≤ 1.2 := by
  rw [DiffusionService.color_ratio]
  exact ⟨le_min (le_max_right _ _) (by norm_num), min_le_right _ _⟩

/-- C1 (amended): for every window of at least two frames, the basic-mode
output is the clamped, truncated, elementwise weighted sum of the float
frames; the enhanced-mode output additionally multiplies the weighted sum
per channel by the colour-consistency ratio before clamping; in both
modes every sample of the output lies in `[0, 255]` (samples are naturals,
so only the upper bound is non-trivial). -/
theorem spec_C1_amended (window : List Frame) (c : ℕ) (bg eg : Frame)
    (h2 : 2 ≤ window.length)
    (hb : DiffusionService.temporal_smooth window c = some bg)
    (he : DiffusionService.enhanced_temporal_smooth window c = some eg) :
    (∀ r j ch, pxD bg 0 r j ch
        = clipByte (blendAt (basicWeights window.length c) (window.map toFloat) r j ch))
    ∧ (∃ sm centerF,
        weightedSum (enhancedWeights window.length c) (window.map toFloat) = some sm
        ∧ (window.map toFloat).get? c = some centerF
        ∧ (∀ r j ch, pxD eg 0 r j ch
            = clipByte (blendAt (enhancedWeights window.length c) (window.map toFloat) r j ch
                * DiffusionService.color_ratio sm centerF ch)))
    ∧ (∀ row ∈ bg, ∀ p ∈ row, ∀ v ∈ p, v ≤ 255)
    ∧ (∀ row ∈ eg, ∀ p ∈ row, ∀ v ∈ p, v ≤ 255) := by
  match window, h2 with
  | a :: b :: t, _ =>
      rw [DiffusionService.temporal_smooth] at hb
      · rw [DiffusionService.enhanced_temporal_smooth] at he
        · rcases Option.map_eq_some'.mp hb with ⟨sm0, hws0, hbg⟩
          cases hws : weightedSum (enhancedWeights (a :: b :: t).length c)
              ((a :: b :: t).map toFloat) with
          | none => rw [hws] at he; exact absurd he (by simp)
          | some sm =>
              rw [hws] at he
              cases hc : ((a :: b :: t).map toFloat).get? c with
              | none => rw [hc] at he; exact absurd he (by simp)
              | some centerF =>
                  rw [hc] at he
                  have heg : eg = imgMap clipByte
                      (DiffusionService.apply_color_consistency sm centerF) :=
                    (Option.some.inj he).symm
                  refine ⟨?_, ⟨sm, centerF, rfl, rfl, ?_⟩, ?_, ?_⟩
                  · intro r j ch
                    rw [← hbg, pxD_clip, (weightedSum_eq_some hws0).2 r j ch]
                  · intro r j ch
                    rw [heg, pxD_clip, pxD_apply_cc, (weightedSum_eq_some hws).2 r j ch]
                  · rw [← hbg]
                    exact imgMap_clip_le sm0
                  · rw [heg]
                    exact imgMap_clip_le _
        · intro f hf
          simp at hf
      · intro f hf
        simp at hf

/-- Witness for the amended C1: a two-frame window of all-zero `1 × 1`
frames, centre offset `0` (both kernels succeed and return the frame). -/
theorem spec_C1_witness :
    (∀ r j ch, pxD (solidF 1 1 0 0 0) 0 r j ch
        = clipByte (blendAt (basicWeights 2 0)
            ([solidF 1 1 0 0 0, solidF 1 1 0 0 0].map toFloat) r j ch))
    ∧ (∀ row ∈ solidF 1 1 0 0 0, ∀ p ∈ row, ∀ v ∈ p, v ≤ 255) := by
  have hb : DiffusionService.temporal_smooth [solidF 1 1 0 0 0, solidF 1 1 0 0 0] 0
      = some (solidF 1 1 0 0 0) :=
    temporal_smooth_solid 2 0 1 1 0 0 0 (by norm_num) (by norm_num) (by norm_num) (by norm_num)
  have he : DiffusionService.enhanced_temporal_smooth
      [solidF 1 1 0 0 0, solidF 1 1 0 0 0] 0 = some (solidF 1 1 0 0 0) :=
    enhanced_temporal_smooth_zero 2 0 1 1 (by norm_num) (by norm_num)
  have h := spec_C1_amended [solidF 1 1 0 0 0, solidF 1 1 0 0 0] 0
    (solidF 1 1 0 0 0) (solidF 1 1 0 0 0) (by norm_num) hb he
  exact ⟨h.1, h.2.2.1⟩

/-- C4: in enhanced mode, whenever the kernel produces an output on a
window of at least two frames, the output is the blended frame multiplied
per channel by `clip(center_mean / (blended_mean + 1e-8), 0.8, 1.2)` and
then clamped/truncated to 8 bits; the applied per-channel correction
always lies within `[0.8, 1.2]`. -/
theorem spec_C4 (window : List Frame) (c : ℕ) (eg : Frame)
    (h2 : 2 ≤ window.length)
    (he : DiffusionService.enhanced_temporal_smooth window c = some eg) :
    ∃ sm centerF,
      weightedSum (enhancedWeights window.length c) (window.map toFloat) = some sm
      ∧ (window.map toFloat).get? c = some centerF
      ∧ (∀ ch, DiffusionService.color_ratio sm centerF ch
          = min (max (channelMean centerF ch / (channelMean sm ch + 1e-8)) 0.8) 1.2)
      ∧ (∀ ch, 0.8 ≤ DiffusionService.color_ratio sm centerF ch
          ∧ DiffusionService.color_ratio sm centerF ch ≤ 1.2)
      ∧ eg = imgMap clipByte (DiffusionService.apply_color_consistency sm centerF) := by
  match window, h2 with
  | a :: b :: t, _ =>
      rw [DiffusionService.enhanced_temporal_smooth] at he
      · cases hws : weightedSum (enhancedWeights (a :: b :: t).length c)
            ((a :: b :: t).map toFloat) with
        | none => rw [hws] at he; exact absurd he (by simp)
        | some sm =>
            rw [hws] at he
            cases hc : ((a :: b :: t).map toFloat).get? c with
            | none => rw [hc] at he; exact absurd he (by simp)
            | some centerF =>
                rw [hc] at he
                exact ⟨sm, centerF, rfl, rfl, fun ch => rfl,
                  fun ch => color_ratio_mem sm centerF ch, (Option.some.inj he).symm⟩
      · intro f hf
        simp at hf

/-- Witness for C4 at the two-frame all-zero window. -/
theorem spec_C4_witness :
    ∃ sm centerF,
      weightedSum (enhancedWeights 2 0)
          ([solidF 1 1 0 0 0, solidF 1 1 0 0 0].map toFloat) = some sm
      ∧ (([solidF 1 1 0 0 0, solidF 1 1 0 0 0] : List Frame).map toFloat).get? 0
          = some centerF
      ∧ (∀ ch, DiffusionService.color_ratio sm centerF ch
          = min (max (channelMean centerF ch / (channelMean sm ch + 1e-8)) 0.8) 1.2)
      ∧ (∀ ch, 0.8 ≤ DiffusionService.color_ratio sm centerF ch
          ∧ DiffusionService.color_ratio sm centerF ch ≤ 1.2)
      ∧ solidF 1 1 0 0 0
          = imgMap clipByte (DiffusionService.apply_color_consistency sm centerF) :=
  spec_C4 [solidF 1 1 0 0 0, solidF 1 1 0 0 0] 0 (solidF 1 1 0 0 0) (by norm_num)
    (enhanced_temporal_smooth_zero 2 0 1 1 (by norm_num) (by norm_num))

/-- C1 (counterexample): on the window `[all-zero 1×1 frame, all-200 1×1
frame]` with centre offset `0`, the enhanced kernel outputs sample `43`
(the `0.8`-clipped colour ratio damps the blend), while the plain clamped
and truncated weighted sum is `53`: the enhanced-mode output does *not*
equal the clamped weighted sum, refuting the claim for enhanced mode. -/
theorem spec_C1_counterexample :
    DiffusionService.enhanced_temporal_smooth
        [solidF 1 1 0 0 0, solidF 1 1 200 200 200] 0
      = some (solidF 1 1 43 43 43)
    ∧ (weightedSum (enhancedWeights 2 0)
        ([solidF 1 1 0 0 0, solidF 1 1 200 200 200].map toFloat)).map (imgMap clipByte)
      = some (solidF 1 1 53 53 53)
    ∧ DiffusionService.enhanced_temporal_smooth
        [solidF 1 1 0 0 0, solidF 1 1 200 200 200] 0
      ≠ (weightedSum (enhancedWeights 2 0)
        ([solidF 1 1 0 0 0, solidF 1 1 200 200 200].map toFloat)).map (imgMap clipByte) := by
  have hw : enhancedWeights 2 0
      = [1 / (1 + Real.exp (-1)), Real.exp (-1) / (1 + Real.exp (-1))] := by
    rw [enhancedWeights, weightsRaw, show List.range 2 = [0, 1] from by decide]
    simp only [List.map_cons, List.map_nil, Nat.cast_zero, Nat.cast_one]
    rw [show -((1 : ℝ) * ((0 : ℝ) - 0) ^ 2) = 0 from by norm_num]
    rw [show -((1 : ℝ) * ((1 : ℝ) - 0) ^ 2) = -1 from by norm_num]
    rw [Real.exp_zero, normWeights]
    simp [List.sum_cons]
  have hfsA : toFloat (solidF 1 1 0 0 0) = [[[(0 : ℝ), 0, 0]]] := by
    simp [toFloat, imgMap, solidF, List.replicate]
  have hfsB : toFloat (solidF 1 1 200 200 200) = [[[(200 : ℝ), 200, 200]]] := by
    simp [toFloat, imgMap, solidF, List.replicate]
  have hg : weightedSum (enhancedWeights 2 0)
      ([solidF 1 1 0 0 0, solidF 1 1 200 200 200].map toFloat)
      = some [[[Real.exp (-1) / (1 + Real.exp (-1)) * 200,
                Real.exp (-1) / (1 + Real.exp (-1)) * 200,
                Real.exp (-1) / (1 + Real.exp (-1)) * 200]]] := by
    rw [List.map_cons, List.map_cons, List.map_nil, hfsA, hfsB, hw, weightedSum]
    rw [if_pos ?hsh]
    case hsh =>
      intro f hf
      rcases List.mem_cons.mp hf with rfl | hf
      · rfl
      rcases List.mem_cons.mp hf with rfl | hf
      · simp [shape]
      · simp at hf
    simp only [List.zip_cons_cons, List.zip_nil_right, List.foldl_cons, List.foldl_nil]
    simp only [imgZero, imgMap, imgAdd, imgZip, imgScale, List.map_cons, List.map_nil,
      List.zipWith_cons_cons, List.zipWith_nil_right]
    norm_num
  -- numeric bounds for `exp (-1)`
  have ht_pos : (0 : ℝ) < Real.exp (-1) := Real.exp_pos _
  have hte : Real.exp 1 * Real.exp (-1) = 1 := by
    rw [← Real.exp_add]
    norm_num
  have hlo := Real.exp_one_gt_d9
  have hhi := Real.exp_one_lt_d9
  have htl : 1 < 2.7182818286 * Real.exp (-1) := by nlinarith
  have hth : 2.7182818283 * Real.exp (-1) < 1 := by nlinarith
  have hden : (0 : ℝ) < 1 + Real.exp (-1) := by linarith
  have hx_lo : (53 : ℝ) ≤ Real.exp (-1) / (1 + Real.exp (-1)) * 200 := by
    rw [div_mul_eq_mul_div, le_div_iff hden]
    nlinarith
  have hx_hi : Real.exp (-1) / (1 + Real.exp (-1)) * 200 < 54 := by
    rw [div_mul_eq_mul_div, div_lt_iff hden]
    nlinarith
  have hy_eq : Real.exp (-1) / (1 + Real.exp (-1)) * 200 * 0.8
      = Real.exp (-1) * 160 / (1 + Real.exp (-1)) := by
    ring
  have hy_lo : (43 : ℝ) ≤ Real.exp (-1) / (1 + Real.exp (-1)) * 200 * 0.8 := by
    rw [hy_eq, le_div_iff hden]
    nlinarith
  have hy_hi : Real.exp (-1) / (1 + Real.exp (-1)) * 200 * 0.8 < 44 := by
    rw [hy_eq, div_lt_iff hden]
    nlinarith
  have hclip : ∀ (x : ℝ) (n : ℕ), (n : ℝ) ≤ x → x < (n : ℝ) + 1 → x ≤ 255 →
      clipByte x = n := by
    intro x n h1 h2 h3
    have hx0 : (0 : ℝ) ≤ x := le_trans (Nat.cast_nonneg n) h1
    rw [clipByte, max_eq_left hx0, min_eq_left h3]
    rw [Nat.floor_eq_iff hx0]
    exact ⟨h1, h2⟩
  have hclip53 : clipByte (Real.exp (-1) / (1 + Real.exp (-1)) * 200) = 53 :=
    hclip _ 53 (by exact_mod_cast hx_lo) (by push_cast; linarith) (by linarith)
  have hclip43 : clipByte (Real.exp (-1) / (1 + Real.exp (-1)) * 200 * 0.8) = 43 :=
    hclip _ 43 (by exact_mod_cast hy_lo) (by push_cast; linarith) (by linarith)
  have hmean0 : ∀ ch, channelMean [[[(0 : ℝ), 0, 0]]] ch = 0 := fun ch =>
    channelMean_zero 1 1 ch
  have hr08 : ∀ (sm : Image ℝ) (ch : ℕ),
      DiffusionService.color_ratio sm [[[(0 : ℝ), 0, 0]]] ch = 0.8 := by
    intro sm ch
    rw [DiffusionService.color_ratio, hmean0]
    rw [zero_div, max_eq_right (by norm_num)]
    exact min_eq_left (by norm_num)
  have hcc : DiffusionService.apply_color_consistency
      [[[Real.exp (-1) / (1 + Real.exp (-1)) * 200,
         Real.exp (-1) / (1 + Real.exp (-1)) * 200,
         Real.exp (-1) / (1 + Real.exp (-1)) * 200]]] [[[(0 : ℝ), 0, 0]]]
      = [[[Real.exp (-1) / (1 + Real.exp (-1)) * 200 * 0.8,
           Real.exp (-1) / (1 + Real.exp (-1)) * 200 * 0.8,
           Real.exp (-1) / (1 + Real.exp (-1)) * 200 * 0.8]]] := by
    rw [DiffusionService.apply_color_consistency]
    simp only [List.map_cons, List.map_nil, List.mapIdx_cons, List.mapIdx_nil]
    simp only [hr08]
  have hmain : DiffusionService.enhanced_temporal_smooth
      [solidF 1 1 0 0 0, solidF 1 1 200 200 200] 0
      = some (solidF 1 1 43 43 43) := by
    rw [DiffusionService.enhanced_temporal_smooth]
    · rw [show ([solidF 1 1 0 0 0, solidF 1 1 200 200 200] : List Frame).length = 2
          from rfl]
      rw [hg]
      rw [show (([solidF 1 1 0 0 0, solidF 1 1 200 200 200] : List Frame).map toFloat).get? 0
            = some [[[(0 : ℝ), 0, 0]]]
          from by rw [List.map_cons, hfsA]; rfl]
      show some (imgMap clipByte (DiffusionService.apply_color_consistency
          [[[Real.exp (-1) / (1 + Real.exp (-1)) * 200,
             Real.exp (-1) / (1 + Real.exp (-1)) * 200,
             Real.exp (-1) / (1 + Real.exp (-1)) * 200]]] [[[(0 : ℝ), 0, 0]]]))
        = some (solidF 1 1 43 43 43)
      rw [hcc]
      simp only [imgMap, List.map_cons, List.map_nil]
      rw [hclip43]
      rfl
    · intro f hf
      simp at hf
  have hplain : (weightedSum (enhancedWeights 2 0)
      ([solidF 1 1 0 0 0, solidF 1 1 200 200 200].map toFloat)).map (imgMap clipByte)
      = some (solidF 1 1 53 53 53) := by
    rw [hg, Option.map_some']
    simp only [imgMap, List.map_cons, List.map_nil]
    rw [hclip53]
    rfl
  refine ⟨hmain, hplain, ?_⟩
  rw [hmain, hplain]
  intro hcon
  have hinj := Option.some.inj hcon
  have h43 : (43 : ℕ) = 53 := by
    have h1 := congrArg (fun g : Frame => pxD g 0 0 0 0) hinj
    simpa [solidF, pxD, List.replicate] using h1
  omega
